import Mathlib

set_option autoImplicit false

/-!
Formal model of `src/libsqlx-server/src/snapshot_store.rs`, the snapshot
index of the libsqlx server.  The index stores fixed-width binary keys
`(database_id, start_frame_no_be, end_frame_no_be)` in an LMDB (`heed`)
table ordered by byte-lexicographic comparison of the raw key bytes, and
answers range-containment queries with a single
`get_lower_than_or_equal_to` probe.  The committed table is modelled as an
association list of key/value pairs, the ordered-probe primitive as the
maximum (by byte order of the encoded key) over the entries whose encoded
key does not exceed the probe.
-/

/-- Big-endian byte string of width `w` for the value `v`
(`u64::to_be_bytes` is `beBytes 8`). -/
def beBytes : Nat → Nat → List Nat
  | 0, _ => []
  | w + 1, v => v / 256 ^ w :: beBytes w (v % 256 ^ w)

/-- Numeric value of a big-endian byte string (`u64::from_be_bytes`). -/
def fromBeBytes (bs : List Nat) : Nat :=
  bs.foldl (fun a b => a * 256 + b) 0

/-- `struct BEU64([u8; 8])`: a `u64` held as its big-endian byte array. -/
structure BEU64 where
  bytes : List Nat
deriving DecidableEq, Repr

/-- `impl From<u64> for BEU64`: `Self(value.to_be_bytes())`. -/
def BEU64.ofU64 (value : Nat) : BEU64 :=
  ⟨beBytes 8 value⟩

/-- `impl From<BEU64> for u64`: `u64::from_be_bytes(value.0)`. -/
def BEU64.toU64 (value : BEU64) : Nat :=
  fromBeBytes value.bytes

/-- Modelled from the spec: `crate::meta::DatabaseId` is not under `src/`;
the spec describes it as an opaque fixed-size identifier compared
byte-wise, so it is modelled as a byte sequence (fixed length is a
hypothesis where needed). -/
abbrev DatabaseId : Type := List Nat

/-- `struct SnapshotKey { database_id, start_frame_no: BEU64, end_frame_no: BEU64 }`,
`#[repr(C)]`. -/
structure SnapshotKey where
  database_id : DatabaseId
  start_frame_no : BEU64
  end_frame_no : BEU64
deriving DecidableEq, Repr

/-- `struct SnapshotMeta { snapshot_id: Uuid }`; the UUID is modelled as its
128-bit value. -/
structure SnapshotMeta where
  snapshot_id : Nat
deriving DecidableEq, Repr

/-- The raw bytes LMDB sees for a key: the `#[repr(C)]` layout
`[database_id][start_frame_no be][end_frame_no be]` (`CowType<SnapshotKey>`
stores the plain-old-data struct bytes). -/
def SnapshotKey.encode (k : SnapshotKey) : List Nat :=
  k.database_id ++ k.start_frame_no.bytes ++ k.end_frame_no.bytes

/-- Byte-lexicographic strict order on byte strings, as LMDB's default key
comparator induces on fixed-width keys. -/
def bytesLt : List Nat → List Nat → Bool
  | _, [] => false
  | [], _ :: _ => true
  | a :: as, b :: bs => a < b || (a == b && bytesLt as bs)

/-- Byte-lexicographic `≤` on byte strings. -/
def bytesLe (a b : List Nat) : Bool :=
  bytesLt a b || a == b

/-- The committed contents of the `snapshot-store-db` table: an association
list of `SnapshotKey`/`SnapshotMeta` rows (LMDB keeps at most one row per
key; `tablePut` maintains this). -/
abbrev SnapshotTable : Type := List (SnapshotKey × SnapshotMeta)

/-- `heed::Database::put` (LMDB `mdb_put` with no flags): insert the row,
replacing any existing row whose key has the same bytes. -/
def tablePut (t : SnapshotTable) (k : SnapshotKey) (v : SnapshotMeta) : SnapshotTable :=
  (k, v) :: List.filter (fun kv => kv.1.encode ≠ k.encode) t

/-- `heed::Database::get_lower_than_or_equal_to`: the entry with the
greatest key not exceeding the probe key in byte-lexicographic order, if
any. -/
def getLTE (t : SnapshotTable) (probe : SnapshotKey) : Option (SnapshotKey × SnapshotMeta) :=
  match t with
  | [] => none
  | kv :: rest =>
    match getLTE rest probe with
    | none => if bytesLe kv.1.encode probe.encode then some kv else none
    | some best =>
      if bytesLe kv.1.encode probe.encode && bytesLt best.1.encode kv.1.encode then some kv
      else some best

/-- `SnapshotStore::register`: build the key from the arguments and `put`
the row inside the caller-supplied transaction. -/
def register (t : SnapshotTable) (database_id : DatabaseId)
    (start_frame_no end_frame_no : Nat) (snapshot_id : Nat) : SnapshotTable :=
  tablePut t
    ⟨database_id, BEU64.ofU64 start_frame_no, BEU64.ofU64 end_frame_no⟩
    ⟨snapshot_id⟩

/-- The probe key `locate` builds: `(database_id, frame_no, u64::MAX)`. -/
def probeKey (database_id : DatabaseId) (frame_no : Nat) : SnapshotKey :=
  ⟨database_id, BEU64.ofU64 frame_no, BEU64.ofU64 (2 ^ 64 - 1)⟩

/-- The two checks `locate` performs on the entry returned by the probe:
`if key.database_id != database_id { None } else if frame_no >= start &&
frame_no <= end { Some(v) } else { None }`. -/
def locateChecks (database_id : DatabaseId) (frame_no : Nat)
    (key : SnapshotKey) (v : SnapshotMeta) : Option SnapshotMeta :=
  if key.database_id ≠ database_id then none
  else if frame_no ≥ key.start_frame_no.toU64 ∧ frame_no ≤ key.end_frame_no.toU64 then some v
  else none

/-- `SnapshotStore::locate` on a committed table, happy path: one
`get_lower_than_or_equal_to` probe at `(database_id, frame_no, u64::MAX)`
followed by the two checks; `Ok(None)` from the probe becomes `None` via
`.transpose()?`. -/
def locate (t : SnapshotTable) (database_id : DatabaseId) (frame_no : Nat) :
    Option SnapshotMeta :=
  match getLTE t (probeKey database_id frame_no) with
  | none => none
  | some (key, v) => locateChecks database_id frame_no key v

/-- Outcome of `env.read_txn()`: success or engine failure. -/
inductive TxnResult where
  | ok : TxnResult
  | err : TxnResult
deriving DecidableEq, Repr

/-- Result of a `heed` lookup: `Ok(Option<(K, V)>)`, or `Err` (engine
failure or a stored record failing to decode). -/
inductive EngineResult (α : Type) where
  | ok : α → EngineResult α
  | err : EngineResult α
deriving DecidableEq, Repr

/-- What a call to `locate` does: return a value, or abort the thread (the
source's `.unwrap()` and `todo!()` both panic). -/
inductive Outcome (α : Type) where
  | ret : α → Outcome α
  | panic : Outcome α
deriving DecidableEq, Repr

/-- The environment a single `locate` call observes: whether its
`read_txn()` succeeds, and what the `get_lower_than_or_equal_to` probe
returns for each key under that read transaction. -/
structure Env where
  read_txn : TxnResult
  get_lte : SnapshotKey → EngineResult (Option (SnapshotKey × SnapshotMeta))

/-- `SnapshotStore::locate` with the fallible environment made explicit:
`self.env.read_txn().unwrap()` panics on failure; the probe result is run
through `.transpose()?` (so `Ok(None)` returns `None`), `Ok((key, v))`
goes through the two checks, and `Err(_) => todo!()` panics. -/
def locateFull (env : Env) (database_id : DatabaseId) (frame_no : Nat) :
    Outcome (Option SnapshotMeta) :=
  match env.read_txn with
  | .err => .panic
  | .ok =>
    match env.get_lte (probeKey database_id frame_no) with
    | .err => .panic
    | .ok none => .ret none
    | .ok (some (key, v)) => .ret (locateChecks database_id frame_no key v)

/-- Inverse of the key layout: split the fixed-width bytes back into the
triple, given the (fixed) width of `DatabaseId`. -/
def decodeKey (L : Nat) (bs : List Nat) : DatabaseId × Nat × Nat :=
  (bs.take L, fromBeBytes ((bs.drop L).take 8), fromBeBytes ((bs.drop (L + 8)).take 8))

/-- Well-formed key: the database id has the store's fixed width and both
frame-number fields are genuine 8-byte strings. -/
def WFKey (L : Nat) (k : SnapshotKey) : Prop :=
  k.database_id.length = L ∧
    k.start_frame_no.bytes.length = 8 ∧ (∀ b ∈ k.start_frame_no.bytes, b < 256) ∧
    k.end_frame_no.bytes.length = 8 ∧ (∀ b ∈ k.end_frame_no.bytes, b < 256)

instance (L : Nat) (k : SnapshotKey) : Decidable (WFKey L k) :=
  inferInstanceAs (Decidable (_ ∧ _))

/-! ### Facts about the big-endian codec -/

theorem beBytes_length (w : Nat) : ∀ v, (beBytes w v).length = w := by
  induction w with
  | zero => intro v; rfl
  | succ w ih => intro v; simp [beBytes, ih]

theorem beBytes_bytes_lt (w : Nat) : ∀ v, v < 256 ^ w → ∀ b ∈ beBytes w v, b < 256 := by
  induction w with
  | zero => intro v _ b hb; simp [beBytes] at hb
  | succ w ih =>
    intro v hv b hb
    have hq : 0 < 256 ^ w := by positivity
    rw [beBytes] at hb
    rcases List.mem_cons.mp hb with hb | hb
    · subst hb
      exact Nat.div_lt_of_lt_mul (by rw [pow_succ] at hv; exact hv)
    · exact ih (v % 256 ^ w) (Nat.mod_lt v hq) b hb

theorem foldl_mul_add (bs : List Nat) : ∀ i : Nat,
    bs.foldl (fun a b => a * 256 + b) i =
      i * 256 ^ bs.length + bs.foldl (fun a b => a * 256 + b) 0 := by
  induction bs with
  | nil => intro i; simp
  | cons c bs ih =>
    intro i
    simp only [List.foldl_cons, List.length_cons]
    rw [ih (i * 256 + c), ih (0 * 256 + c)]
    ring

theorem fromBeBytes_cons (b : Nat) (bs : List Nat) :
    fromBeBytes (b :: bs) = b * 256 ^ bs.length + fromBeBytes bs := by
  simp only [fromBeBytes, List.foldl_cons]
  rw [foldl_mul_add bs (0 * 256 + b)]
  ring_nf

theorem fromBeBytes_lt (bs : List Nat) (h : ∀ b ∈ bs, b < 256) :
    fromBeBytes bs < 256 ^ bs.length := by
  induction bs with
  | nil => simp [fromBeBytes]
  | cons b bs ih =>
    have hb : b < 256 := h b (by simp)
    have hrest : fromBeBytes bs < 256 ^ bs.length :=
      ih (fun c hc => h c (by simp [hc]))
    rw [fromBeBytes_cons, List.length_cons]
    calc b * 256 ^ bs.length + fromBeBytes bs
        < (b + 1) * 256 ^ bs.length := by nlinarith
      _ ≤ 256 * 256 ^ bs.length := Nat.mul_le_mul_right _ hb
      _ = 256 ^ (bs.length + 1) := by ring

theorem fromBeBytes_beBytes (w : Nat) : ∀ v, v < 256 ^ w → fromBeBytes (beBytes w v) = v := by
  induction w with
  | zero =>
    intro v hv
    simp only [pow_zero, Nat.lt_one_iff] at hv
    simp [hv, beBytes, fromBeBytes]
  | succ w ih =>
    intro v hv
    have hq : 0 < 256 ^ w := by positivity
    rw [beBytes, fromBeBytes_cons, beBytes_length, ih (v % 256 ^ w) (Nat.mod_lt v hq)]
    rw [Nat.mul_comm]
    exact Nat.div_add_mod v (256 ^ w)

theorem beBytes_fromBeBytes (bs : List Nat) (h : ∀ b ∈ bs, b < 256) :
    beBytes bs.length (fromBeBytes bs) = bs := by
  induction bs with
  | nil => rfl
  | cons b bs ih =>
    have hq : 0 < 256 ^ bs.length := by positivity
    have hrest : fromBeBytes bs < 256 ^ bs.length :=
      fromBeBytes_lt bs (fun c hc => h c (by simp [hc]))
    rw [List.length_cons, beBytes, fromBeBytes_cons]
    have hdiv : (b * 256 ^ bs.length + fromBeBytes bs) / 256 ^ bs.length = b := by
      rw [Nat.mul_comm b, Nat.mul_add_div hq, Nat.div_eq_of_lt hrest]
      omega
    have hmod : (b * 256 ^ bs.length + fromBeBytes bs) % 256 ^ bs.length = fromBeBytes bs := by
      rw [Nat.mul_comm b, Nat.mul_add_mod, Nat.mod_eq_of_lt hrest]
    rw [hdiv, hmod, ih (fun c hc => h c (by simp [hc]))]

theorem bytesLt_beBytes_iff (w : Nat) : ∀ a b, a < 256 ^ w → b < 256 ^ w →
    (bytesLt (beBytes w a) (beBytes w b) = true ↔ a < b) := by
  induction w with
  | zero =>
    intro a b ha hb
    simp only [pow_zero, Nat.lt_one_iff] at ha hb
    simp [ha, hb, beBytes, bytesLt]
  | succ w ih =>
    intro a b ha hb
    have hq : 0 < 256 ^ w := by positivity
    have hm1 : a % 256 ^ w < 256 ^ w := Nat.mod_lt a hq
    have hm2 : b % 256 ^ w < 256 ^ w := Nat.mod_lt b hq
    have ha1 := Nat.div_add_mod a (256 ^ w)
    have hb1 := Nat.div_add_mod b (256 ^ w)
    rw [beBytes, beBytes]
    simp only [bytesLt, Bool.or_eq_true, decide_eq_true_eq, Bool.and_eq_true, beq_iff_eq]
    rw [ih (a % 256 ^ w) (b % 256 ^ w) hm1 hm2]
    constructor
    · rintro (h | ⟨heq, hm⟩)
      · exact Nat.lt_of_div_lt_div h
      · rw [heq] at ha1
        generalize hg : 256 ^ w * (b / 256 ^ w) = m at ha1 hb1
        omega
    · intro hab
      rcases Nat.lt_trichotomy (a / 256 ^ w) (b / 256 ^ w) with h | h | h
      · exact Or.inl h
      · refine Or.inr ⟨h, ?_⟩
        rw [h] at ha1
        generalize hg : 256 ^ w * (b / 256 ^ w) = m at ha1 hb1
        omega
      · exact absurd (Nat.lt_of_div_lt_div h) (by omega)

/-! ### Facts about the byte-lexicographic order -/

theorem bytesLt_irrefl (a : List Nat) : bytesLt a a = false := by
  induction a with
  | nil => rfl
  | cons x xs ih => simp [bytesLt, ih]

theorem bytesLt_asymm (a : List Nat) : ∀ b, bytesLt a b = true → bytesLt b a = false := by
  induction a with
  | nil =>
    intro b hb
    cases b with
    | nil => simp [bytesLt] at hb
    | cons y ys => rfl
  | cons x xs ih =>
    intro b hb
    cases b with
    | nil => simp [bytesLt] at hb
    | cons y ys =>
      by_contra hba
      rw [Bool.not_eq_false] at hba
      simp only [bytesLt, Bool.or_eq_true, decide_eq_true_eq, Bool.and_eq_true,
        beq_iff_eq] at hb hba
      rcases hb with h1 | ⟨h1, h1s⟩ <;> rcases hba with h2 | ⟨h2, h2s⟩
      · omega
      · omega
      · omega
      · simp [ih ys h1s] at h2s

theorem bytesLt_trichotomy (a : List Nat) : ∀ b,
    a = b ∨ bytesLt a b = true ∨ bytesLt b a = true := by
  induction a with
  | nil =>
    intro b
    cases b with
    | nil => exact Or.inl rfl
    | cons y ys => exact Or.inr (Or.inl rfl)
  | cons x xs ih =>
    intro b
    cases b with
    | nil => exact Or.inr (Or.inr rfl)
    | cons y ys =>
      rcases Nat.lt_trichotomy x y with h | h | h
      · exact Or.inr (Or.inl (by simp [bytesLt, h]))
      · subst h
        rcases ih ys with h2 | h2 | h2
        · exact Or.inl (by rw [h2])
        · exact Or.inr (Or.inl (by simp [bytesLt, h2]))
        · exact Or.inr (Or.inr (by simp [bytesLt, h2]))
      · exact Or.inr (Or.inr (by simp [bytesLt, h]))

theorem bytesLt_trans (a : List Nat) : ∀ b c, bytesLt a b = true → bytesLt b c = true →
    bytesLt a c = true := by
  induction a with
  | nil =>
    intro b c hab hbc
    cases c with
    | nil =>
      cases b with
      | nil => exact hab
      | cons y ys => simp [bytesLt] at hbc
    | cons z zs => rfl
  | cons x xs ih =>
    intro b c hab hbc
    cases b with
    | nil => simp [bytesLt] at hab
    | cons y ys =>
      cases c with
      | nil => simp [bytesLt] at hbc
      | cons z zs =>
        simp only [bytesLt, Bool.or_eq_true, decide_eq_true_eq, Bool.and_eq_true,
          beq_iff_eq] at hab hbc ⊢
        rcases hab with h1 | ⟨h1, h1s⟩ <;> rcases hbc with h2 | ⟨h2, h2s⟩
        · exact Or.inl (Nat.lt_trans h1 h2)
        · exact Or.inl (h2 ▸ h1)
        · exact Or.inl (h1 ▸ h2)
        · exact Or.inr ⟨h1.trans h2, ih ys zs h1s h2s⟩

theorem bytesLe_iff (a b : List Nat) :
    bytesLe a b = true ↔ bytesLt a b = true ∨ a = b := by
  simp [bytesLe]

theorem bytesLe_refl (a : List Nat) : bytesLe a a = true := by
  simp [bytesLe]

theorem not_bytesLe_of_bytesLt (a b : List Nat) (h : bytesLt a b = true) :
    bytesLe b a = false := by
  have hba := bytesLt_asymm a b h
  rcases hab : bytesLe b a with _ | _
  · rfl
  · rw [bytesLe_iff] at hab
    rcases hab with hab | hab
    · rw [hba] at hab; exact absurd hab (by simp)
    · subst hab; rw [bytesLt_irrefl] at h; exact absurd h (by simp)

theorem bytesLe_of_not_lt (a b : List Nat) (h : bytesLt b a = false) :
    bytesLe a b = true := by
  rw [bytesLe_iff]
  rcases bytesLt_trichotomy a b with h2 | h2 | h2
  · exact Or.inr h2
  · exact Or.inl h2
  · rw [h2] at h; exact absurd h (by simp)

theorem bytesLe_trans_bytesLt (a b c : List Nat) (hab : bytesLe a b = true)
    (hbc : bytesLt b c = true) : bytesLt a c = true := by
  rw [bytesLe_iff] at hab
  rcases hab with hab | hab
  · exact bytesLt_trans a b c hab hbc
  · exact hab ▸ hbc

theorem bytesLt_trans_bytesLe (a b c : List Nat) (hab : bytesLt a b = true)
    (hbc : bytesLe b c = true) : bytesLt a c = true := by
  rw [bytesLe_iff] at hbc
  rcases hbc with hbc | hbc
  · exact bytesLt_trans a b c hab hbc
  · exact hbc ▸ hab

theorem bytesLe_trans (a b c : List Nat) (hab : bytesLe a b = true)
    (hbc : bytesLe b c = true) : bytesLe a c = true := by
  rw [bytesLe_iff] at hab ⊢
  rcases hab with hab | hab
  · exact Or.inl (bytesLt_trans_bytesLe a b c hab hbc)
  · exact hab ▸ (bytesLe_iff b c).mp hbc

theorem bytesLt_append_same (p : List Nat) : ∀ xs ys,
    bytesLt (p ++ xs) (p ++ ys) = bytesLt xs ys := by
  induction p with
  | nil => intro xs ys; rfl
  | cons a p ih =>
    intro xs ys
    cases hxy : bytesLt xs ys with
    | false => simp [bytesLt, ih, hxy]
    | true => simp [bytesLt, ih, hxy]

theorem bytesLe_append_same (p xs ys : List Nat) :
    bytesLe (p ++ xs) (p ++ ys) = bytesLe xs ys := by
  have h : (p ++ xs == p ++ ys) = (xs == ys) := by
    rcases hxy : (xs == ys) with _ | _
    · simp only [beq_eq_false_iff_ne] at hxy ⊢
      exact fun hc => hxy (List.append_cancel_left hc)
    · simp only [beq_iff_eq] at hxy
      subst hxy
      simp
  simp [bytesLe, bytesLt_append_same, h]

theorem bytesLt_append_of_lt (xs : List Nat) : ∀ ys as bs, xs.length = ys.length →
    bytesLt xs ys = true → bytesLt (xs ++ as) (ys ++ bs) = true := by
  induction xs with
  | nil =>
    intro ys as bs hlen h
    cases ys with
    | nil => simp [bytesLt] at h
    | cons y ys => simp at hlen
  | cons x xs ih =>
    intro ys as bs hlen h
    cases ys with
    | nil => simp at hlen
    | cons y ys =>
      simp only [List.length_cons, Nat.succ.injEq] at hlen
      simp only [bytesLt, Bool.or_eq_true, decide_eq_true_eq, Bool.and_eq_true,
        beq_iff_eq] at h ⊢
      rcases h with h | ⟨h, hs⟩
      · exact Or.inl h
      · exact Or.inr ⟨h, ih ys as bs hlen hs⟩

theorem first_not_lt_of_le_append (xs ys as bs : List Nat) (hlen : xs.length = ys.length)
    (h : bytesLe (xs ++ as) (ys ++ bs) = true) : bytesLt ys xs = false := by
  rcases hlt : bytesLt ys xs with _ | _
  · rfl
  · have := bytesLt_append_of_lt ys xs bs as hlen.symm hlt
    rw [not_bytesLe_of_bytesLt _ _ this] at h
    exact absurd h (by simp)

theorem middle_eq_of_sandwich (p q xs ys zs : List Nat) (hlen : p.length = q.length)
    (h1 : bytesLe (p ++ xs) (q ++ ys) = true)
    (h2 : bytesLe (q ++ ys) (p ++ zs) = true) : q = p := by
  rcases bytesLt_trichotomy p q with h | h | h
  · exact h.symm
  · have := bytesLt_append_of_lt p q zs ys hlen h
    rw [not_bytesLe_of_bytesLt _ _ this] at h2
    exact absurd h2 (by simp)
  · have := bytesLt_append_of_lt q p ys xs hlen.symm h
    rw [not_bytesLe_of_bytesLt _ _ this] at h1
    exact absurd h1 (by simp)

/-! ### Facts about well-formed keys and their encodings -/

theorem pow256_eq_pow2 : (256 : Nat) ^ 8 = 2 ^ 64 := by norm_num

theorem lt_u64_of_lt_pow256 {v : Nat} (h : v < 256 ^ 8) : v < 2 ^ 64 := by
  rw [pow256_eq_pow2] at h
  exact h

theorem lt_pow256_of_lt_u64 {v : Nat} (h : v < 2 ^ 64) : v < 256 ^ 8 := by
  rw [pow256_eq_pow2]
  exact h

theorem toU64_lt (x : BEU64) (hlen : x.bytes.length = 8) (hb : ∀ b ∈ x.bytes, b < 256) :
    x.toU64 < 2 ^ 64 := by
  have h := fromBeBytes_lt x.bytes hb
  rw [hlen] at h
  exact lt_u64_of_lt_pow256 h

theorem ofU64_toU64 (x : BEU64) (hlen : x.bytes.length = 8) (hb : ∀ b ∈ x.bytes, b < 256) :
    BEU64.ofU64 x.toU64 = x := by
  have h := beBytes_fromBeBytes x.bytes hb
  rw [hlen] at h
  cases x with
  | mk bs =>
    simp only [BEU64.ofU64, BEU64.toU64] at h ⊢
    rw [h]

theorem toU64_ofU64 (v : Nat) (hv : v < 2 ^ 64) : (BEU64.ofU64 v).toU64 = v :=
  fromBeBytes_beBytes 8 v (lt_pow256_of_lt_u64 hv)

theorem bytes_ofU64_eq (x : BEU64) (hlen : x.bytes.length = 8)
    (hb : ∀ b ∈ x.bytes, b < 256) : x.bytes = beBytes 8 x.toU64 :=
  (congrArg BEU64.bytes (ofU64_toU64 x hlen hb)).symm

theorem WFKey_ofU64 (L : Nat) (D : DatabaseId) (s e : Nat) (hD : D.length = L)
    (hs : s < 2 ^ 64) (he : e < 2 ^ 64) :
    WFKey L ⟨D, BEU64.ofU64 s, BEU64.ofU64 e⟩ := by
  refine ⟨hD, beBytes_length 8 s, ?_, beBytes_length 8 e, ?_⟩
  · exact beBytes_bytes_lt 8 s (lt_pow256_of_lt_u64 hs)
  · exact beBytes_bytes_lt 8 e (lt_pow256_of_lt_u64 he)

theorem encode_mk (d : DatabaseId) (sb eb : BEU64) :
    SnapshotKey.encode ⟨d, sb, eb⟩ = d ++ (sb.bytes ++ eb.bytes) := by
  simp [SnapshotKey.encode]

theorem encode_inj {L : Nat} {k1 k2 : SnapshotKey} (h1 : WFKey L k1) (h2 : WFKey L k2)
    (h : k1.encode = k2.encode) : k1 = k2 := by
  obtain ⟨d1, ⟨s1⟩, ⟨e1⟩⟩ := k1
  obtain ⟨d2, ⟨s2⟩, ⟨e2⟩⟩ := k2
  obtain ⟨hdb1, hs1, -, he1, -⟩ := h1
  obtain ⟨hdb2, hs2, -, he2, -⟩ := h2
  simp only [SnapshotKey.encode] at h
  simp only at hdb1 hdb2 hs1 hs2 he1 he2
  have hd : d1 ++ s1 = d2 ++ s2 ∧ e1 = e2 :=
    List.append_inj h (by simp [hdb1, hdb2, hs1, hs2])
  have hr : d1 = d2 ∧ s1 = s2 := List.append_inj hd.1 (by rw [hdb1, hdb2])
  simp only [SnapshotKey.mk.injEq, BEU64.mk.injEq]
  exact ⟨hr.1, hr.2, hd.2⟩

theorem bytesLt_append8_of_lt (s1 s2 : Nat) (as bs : List Nat)
    (hs1 : s1 < 2 ^ 64) (hs2 : s2 < 2 ^ 64) (h : s1 < s2) :
    bytesLt (beBytes 8 s1 ++ as) (beBytes 8 s2 ++ bs) = true :=
  bytesLt_append_of_lt (beBytes 8 s1) (beBytes 8 s2) as bs
    (by rw [beBytes_length, beBytes_length])
    ((bytesLt_beBytes_iff 8 s1 s2 (lt_pow256_of_lt_u64 hs1) (lt_pow256_of_lt_u64 hs2)).mpr h)

theorem le_of_bytesLe_append8 (s1 s2 : Nat) (as bs : List Nat)
    (hs1 : s1 < 2 ^ 64) (hs2 : s2 < 2 ^ 64)
    (h : bytesLe (beBytes 8 s1 ++ as) (beBytes 8 s2 ++ bs) = true) : s1 ≤ s2 := by
  have hnl := first_not_lt_of_le_append (beBytes 8 s1) (beBytes 8 s2) as bs
    (by rw [beBytes_length, beBytes_length]) h
  by_contra hc
  push_neg at hc
  rw [(bytesLt_beBytes_iff 8 s2 s1 (lt_pow256_of_lt_u64 hs2)
    (lt_pow256_of_lt_u64 hs1)).mpr hc] at hnl
  exact absurd hnl (by simp)

theorem beBytes_le_of_le (s1 s2 : Nat) (hs1 : s1 < 2 ^ 64) (hs2 : s2 < 2 ^ 64)
    (h : s1 ≤ s2) : bytesLe (beBytes 8 s1) (beBytes 8 s2) = true := by
  rcases Nat.lt_or_eq_of_le h with h | h
  · rw [bytesLe_iff]
    exact Or.inl ((bytesLt_beBytes_iff 8 s1 s2 (lt_pow256_of_lt_u64 hs1)
      (lt_pow256_of_lt_u64 hs2)).mpr h)
  · subst h
    exact bytesLe_refl _

/-! ### Characterisation of the ordered probe -/

theorem getLTE_mem (p : SnapshotKey) : ∀ (t : SnapshotTable) (kv : SnapshotKey × SnapshotMeta),
    getLTE t p = some kv → kv ∈ t ∧ bytesLe kv.1.encode p.encode = true := by
  intro t
  induction t with
  | nil => intro kv h; simp [getLTE] at h
  | cons x rest ih =>
    intro kv h
    rw [getLTE] at h
    cases hr : getLTE rest p with
    | none =>
      rw [hr] at h
      by_cases hc : bytesLe x.1.encode p.encode = true
      · rw [if_pos hc] at h
        cases h
        exact ⟨List.mem_cons_self x rest, hc⟩
      · rw [if_neg hc] at h
        exact absurd h (by simp)
    | some best =>
      rw [hr] at h
      dsimp only at h
      by_cases hc : (bytesLe x.1.encode p.encode && bytesLt best.1.encode x.1.encode) = true
      · rw [if_pos hc] at h
        cases h
        exact ⟨List.mem_cons_self x rest, (Bool.and_eq_true _ _).mp hc |>.1⟩
      · rw [if_neg hc] at h
        cases h
        have := ih kv hr
        exact ⟨List.mem_cons_of_mem x this.1, this.2⟩

theorem getLTE_none (p : SnapshotKey) : ∀ (t : SnapshotTable),
    getLTE t p = none → ∀ kv ∈ t, bytesLe kv.1.encode p.encode = false := by
  intro t
  induction t with
  | nil => intro _ kv hkv; simp at hkv
  | cons x rest ih =>
    intro h kv hkv
    rw [getLTE] at h
    cases hr : getLTE rest p with
    | none =>
      rw [hr] at h
      by_cases hc : bytesLe x.1.encode p.encode = true
      · rw [if_pos hc] at h; exact absurd h (by simp)
      · rcases List.mem_cons.mp hkv with hkv | hkv
        · subst hkv; exact Bool.not_eq_true _ ▸ hc
        · exact ih hr kv hkv
    | some best =>
      rw [hr] at h
      dsimp only at h
      by_cases hc : (bytesLe x.1.encode p.encode && bytesLt best.1.encode x.1.encode) = true
      · rw [if_pos hc] at h; exact absurd h (by simp)
      · rw [if_neg hc] at h; exact absurd h (by simp)

theorem getLTE_max (p : SnapshotKey) : ∀ (t : SnapshotTable) (kv : SnapshotKey × SnapshotMeta),
    getLTE t p = some kv → ∀ kv2 ∈ t, bytesLe kv2.1.encode p.encode = true →
      bytesLe kv2.1.encode kv.1.encode = true := by
  intro t
  induction t with
  | nil => intro kv h; simp [getLTE] at h
  | cons x rest ih =>
    intro kv h kv2 hkv2 hle2
    rw [getLTE] at h
    cases hr : getLTE rest p with
    | none =>
      rw [hr] at h
      by_cases hc : bytesLe x.1.encode p.encode = true
      · rw [if_pos hc] at h
        cases h
        rcases List.mem_cons.mp hkv2 with hkv2 | hkv2
        · subst hkv2; exact bytesLe_refl _
        · rw [getLTE_none p rest hr kv2 hkv2] at hle2
          exact absurd hle2 (by simp)
      · rw [if_neg hc] at h
        exact absurd h (by simp)
    | some best =>
      rw [hr] at h
      dsimp only at h
      by_cases hc : (bytesLe x.1.encode p.encode && bytesLt best.1.encode x.1.encode) = true
      · rw [if_pos hc] at h
        cases h
        rcases List.mem_cons.mp hkv2 with hkv2 | hkv2
        · subst hkv2; exact bytesLe_refl _
        · have hlt := ((Bool.and_eq_true _ _).mp hc).2
          have hle := ih best hr kv2 hkv2 hle2
          rw [bytesLe_iff]
          exact Or.inl (bytesLe_trans_bytesLt _ _ _ hle hlt)
      · rw [if_neg hc] at h
        cases h
        rcases List.mem_cons.mp hkv2 with hkv2 | hkv2
        · subst hkv2
          rw [Bool.and_eq_true] at hc
          push_neg at hc
          have := hc hle2
          exact bytesLe_of_not_lt _ _ (Bool.eq_false_iff.mpr this)
        · exact ih kv hr kv2 hkv2 hle2

theorem getLTE_isSome (p : SnapshotKey) (t : SnapshotTable)
    (kv : SnapshotKey × SnapshotMeta) (hmem : kv ∈ t)
    (hle : bytesLe kv.1.encode p.encode = true) : getLTE t p ≠ none := by
  intro hnone
  rw [getLTE_none p t hnone kv hmem] at hle
  exact absurd hle (by simp)

/-! ### Comparing encoded keys against the probe -/

theorem encode_eq (k : SnapshotKey) :
    k.encode = k.database_id ++ (k.start_frame_no.bytes ++ k.end_frame_no.bytes) := by
  simp [SnapshotKey.encode]

theorem WFKey_probe (L : Nat) (D : DatabaseId) (f : Nat) (hD : D.length = L)
    (hf : f < 2 ^ 64) : WFKey L (probeKey D f) :=
  WFKey_ofU64 L D f (2 ^ 64 - 1) hD hf (by omega)

theorem probe_start_toU64 (D : DatabaseId) (f : Nat) (hf : f < 2 ^ 64) :
    (probeKey D f).start_frame_no.toU64 = f :=
  toU64_ofU64 f hf

theorem probe_end_toU64 (D : DatabaseId) (f : Nat) :
    (probeKey D f).end_frame_no.toU64 = 2 ^ 64 - 1 :=
  toU64_ofU64 (2 ^ 64 - 1) (by omega)

theorem encode_le_probe {L : Nat} {k : SnapshotKey} {D : DatabaseId} {f : Nat}
    (hwf : WFKey L k) (hf : f < 2 ^ 64) (hdb : k.database_id = D)
    (hs : k.start_frame_no.toU64 ≤ f) :
    bytesLe k.encode (probeKey D f).encode = true := by
  obtain ⟨hdbl, hsl, hsb, hel, heb⟩ := hwf
  have hslt : k.start_frame_no.toU64 < 2 ^ 64 := toU64_lt _ hsl hsb
  have helt : k.end_frame_no.toU64 < 2 ^ 64 := toU64_lt _ hel heb
  simp only [encode_eq, probeKey] at hdb ⊢
  rw [hdb, bytesLe_append_same]
  rw [bytes_ofU64_eq k.start_frame_no hsl hsb, bytes_ofU64_eq k.end_frame_no hel heb]
  rcases Nat.lt_or_eq_of_le hs with h | h
  · rw [bytesLe_iff]
    exact Or.inl (bytesLt_append8_of_lt _ _ _ _ hslt hf h)
  · rw [h]
    show bytesLe (beBytes 8 f ++ _) ((BEU64.ofU64 f).bytes ++ (BEU64.ofU64 (2 ^ 64 - 1)).bytes) = true
    show bytesLe (beBytes 8 f ++ _) (beBytes 8 f ++ beBytes 8 (2 ^ 64 - 1)) = true
    rw [bytesLe_append_same]
    exact beBytes_le_of_le _ _ helt (by omega) (by omega)

theorem start_le_of_encode_le {L : Nat} {k1 k2 : SnapshotKey}
    (h1 : WFKey L k1) (h2 : WFKey L k2) (hdb : k1.database_id = k2.database_id)
    (hle : bytesLe k1.encode k2.encode = true) :
    k1.start_frame_no.toU64 ≤ k2.start_frame_no.toU64 := by
  obtain ⟨hd1, hs1, hb1, he1, hc1⟩ := h1
  obtain ⟨hd2, hs2, hb2, he2, hc2⟩ := h2
  simp only [encode_eq] at hle
  rw [hdb, bytesLe_append_same] at hle
  rw [bytes_ofU64_eq k1.start_frame_no hs1 hb1, bytes_ofU64_eq k2.start_frame_no hs2 hb2] at hle
  exact le_of_bytesLe_append8 _ _ _ _ (toU64_lt _ hs1 hb1) (toU64_lt _ hs2 hb2) hle

theorem db_eq_of_sandwich {L : Nat} {k1 k2 k3 : SnapshotKey}
    (h2 : WFKey L k2) (hlen : k1.database_id.length = L)
    (hdb : k3.database_id = k1.database_id)
    (ha : bytesLe k1.encode k2.encode = true)
    (hb : bytesLe k2.encode k3.encode = true) :
    k2.database_id = k1.database_id := by
  simp only [encode_eq] at ha hb
  rw [hdb] at hb
  exact middle_eq_of_sandwich k1.database_id k2.database_id _ _ _
    (by rw [hlen, h2.1]) ha hb

/-! ### The caller invariants and the main correctness lemma for `locate` -/

/-- The invariants the spec requires the caller to maintain: well-formed
keys, `start_frame_no <= end_frame_no`, one row per key, and, per
database, pairwise non-overlapping ranges. -/
def TableInv (L : Nat) (t : SnapshotTable) : Prop :=
  (∀ kv ∈ t, WFKey L kv.1) ∧
    (∀ kv ∈ t, kv.1.start_frame_no.toU64 ≤ kv.1.end_frame_no.toU64) ∧
    (List.map (fun kv => kv.1.encode) t).Nodup ∧
    (∀ kv1 ∈ t, ∀ kv2 ∈ t, kv1.1.database_id = kv2.1.database_id →
      kv1.1.encode ≠ kv2.1.encode →
      kv1.1.end_frame_no.toU64 < kv2.1.start_frame_no.toU64 ∨
        kv2.1.end_frame_no.toU64 < kv1.1.start_frame_no.toU64)

instance (L : Nat) (t : SnapshotTable) : Decidable (TableInv L t) :=
  inferInstanceAs (Decidable (_ ∧ _))

theorem mem_value_eq {t : SnapshotTable}
    (hnodup : (List.map (fun kv => kv.1.encode) t).Nodup)
    {k : SnapshotKey} {v1 v2 : SnapshotMeta} (h1 : (k, v1) ∈ t) (h2 : (k, v2) ∈ t) :
    v1 = v2 := by
  induction t with
  | nil => simp at h1
  | cons x rest ih =>
    rw [List.map_cons, List.nodup_cons] at hnodup
    rcases List.mem_cons.mp h1 with h1 | h1 <;> rcases List.mem_cons.mp h2 with h2 | h2
    · exact congrArg Prod.snd (h1.trans h2.symm)
    · exfalso
      apply hnodup.1
      rw [← h1]
      exact List.mem_map.mpr ⟨(k, v2), h2, rfl⟩
    · exfalso
      apply hnodup.1
      rw [← h2]
      exact List.mem_map.mpr ⟨(k, v1), h1, rfl⟩
    · exact ih hnodup.2 h1 h2

theorem locate_eq_some_iff (L : Nat) (t : SnapshotTable) (D : DatabaseId) (f : Nat)
    (hD : D.length = L) (hf : f < 2 ^ 64) (hinv : TableInv L t) (v : SnapshotMeta) :
    locate t D f = some v ↔
      ∃ k : SnapshotKey, (k, v) ∈ t ∧ k.database_id = D ∧
        k.start_frame_no.toU64 ≤ f ∧ f ≤ k.end_frame_no.toU64 := by
  obtain ⟨hwf, hrange, hnodup, hdisj⟩ := hinv
  constructor
  · intro h
    rw [locate] at h
    cases hg : getLTE t (probeKey D f) with
    | none => rw [hg] at h; exact absurd h (by simp)
    | some kv =>
      obtain ⟨key, v2⟩ := kv
      rw [hg] at h
      dsimp only at h
      rw [locateChecks] at h
      by_cases hdbeq : key.database_id ≠ D
      · rw [if_pos hdbeq] at h
        exact absurd h (by simp)
      · rw [if_neg hdbeq] at h
        push_neg at hdbeq
        by_cases hchk : f ≥ key.start_frame_no.toU64 ∧ f ≤ key.end_frame_no.toU64
        · rw [if_pos hchk] at h
          injection h with h
          subst h
          have hm := getLTE_mem _ t (key, v2) hg
          exact ⟨key, hm.1, hdbeq, hchk.1, hchk.2⟩
        · rw [if_neg hchk] at h
          exact absurd h (by simp)
  · rintro ⟨k, hmem, hdb, hs, he⟩
    have hwfk := hwf (k, v) hmem
    have hle := encode_le_probe hwfk hf hdb hs
    cases hg : getLTE t (probeKey D f) with
    | none => exact absurd hg (getLTE_isSome _ t (k, v) hmem hle)
    | some kv =>
      obtain ⟨k2, v2⟩ := kv
      have hm := getLTE_mem _ t (k2, v2) hg
      have hwfk2 := hwf (k2, v2) hm.1
      have hmax := getLTE_max _ t (k2, v2) hg (k, v) hmem hle
      have hdb2 : k2.database_id = D := by
        rw [← hdb]
        exact db_eq_of_sandwich hwfk2 (hdb ▸ hD) (show (probeKey D f).database_id = _ from hdb ▸ rfl)
          hmax hm.2
      have hs2 : k2.start_frame_no.toU64 ≤ f := by
        have := start_le_of_encode_le hwfk2 (WFKey_probe L D f hD hf)
          (by rw [hdb2]; rfl) hm.2
        rwa [probe_start_toU64 D f hf] at this
      have hs12 : k.start_frame_no.toU64 ≤ k2.start_frame_no.toU64 :=
        start_le_of_encode_le hwfk hwfk2 (by rw [hdb, hdb2]) hmax
      have hkeq : k = k2 := by
        by_cases henc : k.encode = k2.encode
        · exact encode_inj hwfk hwfk2 henc
        · rcases hdisj (k, v) hmem (k2, v2) hm.1 (by rw [hdb, hdb2]) henc with hd | hd
          · dsimp only at hd
            omega
          · have := hrange (k2, v2) hm.1
            dsimp only at hd this
            omega
      subst hkeq
      have hv : v2 = v := mem_value_eq hnodup hm.1 hmem
      rw [locate, hg]
      dsimp only
      rw [locateChecks, if_neg (by push_neg; exact hdb2), if_pos ⟨hs, he⟩, hv]

/-! ### Claim theorems -/

/-- C1: under the caller invariants, `locate(database_id, frame_no)` returns
`Some(meta)` if and only if some registered range for that database
contains `frame_no`, and the returned meta is the one registered with that
range. -/
theorem locate_contains_iff (L : Nat) (t : SnapshotTable) (D : DatabaseId) (f : Nat)
    (hD : D.length = L) (hf : f < 2 ^ 64) (hinv : TableInv L t) :
    ∀ v : SnapshotMeta, locate t D f = some v ↔
      ∃ k : SnapshotKey, (k, v) ∈ t ∧ k.database_id = D ∧
        k.start_frame_no.toU64 ≤ f ∧ f ≤ k.end_frame_no.toU64 :=
  fun v => locate_eq_some_iff L t D f hD hf hinv v

/-- C1 witness: with `[1,10] -> 1` and `[11,20] -> 2` registered for
database `[0]`, `locate` at frame 10 returns snapshot 1. -/
theorem locate_contains_iff_witness :
    locate (register (register [] [0] 1 10 1) [0] 11 20 2) [0] 10 = some ⟨1⟩ :=
  (locate_contains_iff 1 (register (register [] [0] 1 10 1) [0] 11 20 2) [0] 10
      rfl (by decide) (by decide) ⟨1⟩).mpr
    ⟨⟨[0], BEU64.ofU64 1, BEU64.ofU64 10⟩, by decide, rfl, by decide, by decide⟩

/-- C2: when every registered range belongs to database `D1` and `D2` is a
different database, `locate(D2, f)` returns `None` for every frame: the
probe result is only returned when its `database_id` matches the query. -/
theorem locate_other_db_none (t : SnapshotTable) (D1 D2 : DatabaseId) (f : Nat)
    (honly : ∀ kv ∈ t, kv.1.database_id = D1) (hne : D1 ≠ D2) :
    locate t D2 f = none := by
  rw [locate]
  cases hg : getLTE t (probeKey D2 f) with
  | none => rfl
  | some kv =>
    obtain ⟨key, v⟩ := kv
    dsimp only
    have hm := getLTE_mem _ t (key, v) hg
    rw [locateChecks, if_pos (show key.database_id ≠ D2 by
      rw [honly (key, v) hm.1]; exact hne)]

/-- C2 witness: `[1,10] -> 5` registered for database `[1]` only; probing
database `[2]` at frame 5 finds nothing. -/
theorem locate_other_db_none_witness :
    locate (register [] [1] 1 10 5) [2] 5 = none :=
  locate_other_db_none (register [] [1] 1 10 5) [1] [2] 5 (by decide) (by decide)

/-- C3: decoding the encoded fixed-width key reproduces the original
`(database_id, start, end)` triple, and `u64 -> BEU64 -> u64` is the
identity on every 64-bit value. -/
theorem snapshot_key_roundtrip (db : DatabaseId) (s e : Nat)
    (hs : s < 2 ^ 64) (he : e < 2 ^ 64) (hse : s ≤ e) :
    decodeKey db.length (SnapshotKey.encode ⟨db, BEU64.ofU64 s, BEU64.ofU64 e⟩) = (db, s, e)
      ∧ ∀ v : Nat, v < 2 ^ 64 → (BEU64.ofU64 v).toU64 = v := by
  constructor
  · show decodeKey db.length (db ++ beBytes 8 s ++ beBytes 8 e) = (db, s, e)
    have h1 : (db ++ beBytes 8 s ++ beBytes 8 e).take db.length = db := by
      rw [List.append_assoc]
      exact List.take_left db _
    have h2 : (db ++ beBytes 8 s ++ beBytes 8 e).drop db.length = beBytes 8 s ++ beBytes 8 e := by
      rw [List.append_assoc]
      exact List.drop_left db _
    have h3 : (beBytes 8 s ++ beBytes 8 e).take 8 = beBytes 8 s :=
      List.take_left' (beBytes_length 8 s)
    have h4 : (db ++ beBytes 8 s ++ beBytes 8 e).drop (db.length + 8) = beBytes 8 e :=
      List.drop_left' (by rw [List.length_append, beBytes_length])
    have h5 : (beBytes 8 e).take 8 = beBytes 8 e :=
      List.take_of_length_le (le_of_eq (beBytes_length 8 e))
    rw [decodeKey, h1, h2, h3, h4, h5]
    rw [fromBeBytes_beBytes 8 s (lt_pow256_of_lt_u64 hs),
      fromBeBytes_beBytes 8 e (lt_pow256_of_lt_u64 he)]
  · exact fun v hv => toU64_ofU64 v hv

/-- C3 witness: the round-trip at the concrete triple `([7], 3, 9)`. -/
theorem snapshot_key_roundtrip_witness :
    decodeKey (List.length [7]) (SnapshotKey.encode ⟨[7], BEU64.ofU64 3, BEU64.ofU64 9⟩) =
      ([7], 3, 9) :=
  (snapshot_key_roundtrip [7] 3 9 (by norm_num) (by norm_num) (by norm_num)).1

/-- C4: with equal `database_id`, a key with smaller `start_frame_no`
encodes to a byte-lexicographically strictly smaller byte string, because
the frame numbers are stored big-endian. -/
theorem encode_order_preserving (db : DatabaseId) (s1 e1 s2 e2 : Nat)
    (hs1 : s1 < 2 ^ 64) (hs2 : s2 < 2 ^ 64) (hlt : s1 < s2) :
    bytesLt (SnapshotKey.encode ⟨db, BEU64.ofU64 s1, BEU64.ofU64 e1⟩)
      (SnapshotKey.encode ⟨db, BEU64.ofU64 s2, BEU64.ofU64 e2⟩) = true := by
  simp only [encode_eq]
  rw [bytesLt_append_same]
  exact bytesLt_append8_of_lt s1 s2 _ _ hs1 hs2 hlt

/-- C4 witness: `([0],1,10)` encodes strictly below `([0],2,20)`. -/
theorem encode_order_preserving_witness :
    bytesLt (SnapshotKey.encode ⟨[0], BEU64.ofU64 1, BEU64.ofU64 10⟩)
      (SnapshotKey.encode ⟨[0], BEU64.ofU64 2, BEU64.ofU64 20⟩) = true :=
  encode_order_preserving [0] 1 10 2 20 (by norm_num) (by norm_num) (by norm_num)

/-- C5: a registered range ending at `u64::MAX` is found when probing at
`frame_no = u64::MAX`, even though the probe key coincides with or exceeds
every stored key. -/
theorem locate_max_boundary (L : Nat) (t : SnapshotTable) (D : DatabaseId)
    (k : SnapshotKey) (v : SnapshotMeta)
    (hD : D.length = L) (hinv : TableInv L t)
    (hmem : (k, v) ∈ t) (hdb : k.database_id = D)
    (hend : k.end_frame_no = BEU64.ofU64 (2 ^ 64 - 1)) :
    locate t D (2 ^ 64 - 1) = some v := by
  have hwfk := hinv.1 (k, v) hmem
  have hstart : k.start_frame_no.toU64 ≤ 2 ^ 64 - 1 := by
    have := toU64_lt k.start_frame_no hwfk.2.1 hwfk.2.2.1
    omega
  have hende : k.end_frame_no.toU64 = 2 ^ 64 - 1 := by
    rw [hend]
    exact toU64_ofU64 _ (by omega)
  exact (locate_eq_some_iff L t D (2 ^ 64 - 1) hD (by omega) hinv v).mpr
    ⟨k, hmem, hdb, hstart, le_of_eq hende.symm⟩

/-- C5 witness: `[5, u64::MAX] -> 9` registered for `[3]`; probing at
`u64::MAX` returns snapshot 9. -/
theorem locate_max_boundary_witness :
    locate (register [] [3] 5 (2 ^ 64 - 1) 9) [3] (2 ^ 64 - 1) = some ⟨9⟩ :=
  locate_max_boundary 1 (register [] [3] 5 (2 ^ 64 - 1) 9) [3]
    ⟨[3], BEU64.ofU64 5, BEU64.ofU64 (2 ^ 64 - 1)⟩ ⟨9⟩
    rfl (by decide) (by decide) rfl rfl

/-- C6: the three no-match outcomes — empty probe result, database-id
mismatch, and frame outside the retrieved range — all make `locate` return
`None` as an ordinary absence value, not an error or a panic. -/
theorem locate_absence_is_none (env : Env) (D : DatabaseId) (f : Nat)
    (htxn : env.read_txn = TxnResult.ok) :
    (env.get_lte (probeKey D f) = EngineResult.ok none →
      locateFull env D f = Outcome.ret none) ∧
    (∀ k v, env.get_lte (probeKey D f) = EngineResult.ok (some (k, v)) →
      k.database_id ≠ D → locateFull env D f = Outcome.ret none) ∧
    (∀ k v, env.get_lte (probeKey D f) = EngineResult.ok (some (k, v)) →
      k.database_id = D →
      ¬(f ≥ k.start_frame_no.toU64 ∧ f ≤ k.end_frame_no.toU64) →
      locateFull env D f = Outcome.ret none) := by
  refine ⟨?_, ?_, ?_⟩
  · intro hg
    simp only [locateFull, htxn, hg]
  · intro k v hg hne
    simp only [locateFull, htxn, hg]
    rw [locateChecks, if_pos hne]
  · intro k v hg heq hnr
    simp only [locateFull, htxn, hg]
    rw [locateChecks, if_neg (not_not_intro heq), if_neg hnr]

/-- C6 witness: an environment whose probe finds nothing makes `locate`
return `None`. -/
theorem locate_absence_is_none_witness :
    locateFull ⟨TxnResult.ok, fun _ => EngineResult.ok none⟩ [0] 0 = Outcome.ret none :=
  (locate_absence_is_none ⟨TxnResult.ok, fun _ => EngineResult.ok none⟩ [0] 0 rfl).1 rfl

/-- C7: when the retrieved record fails to decode (the probe reports an
engine/decode error), `locate` hits `Err(_) => todo!()` and aborts — a
fatal condition distinct from the `None` absence value; it never reports
"not found" in that case. -/
theorem locate_decode_error_fatal (env : Env) (D : DatabaseId) (f : Nat)
    (htxn : env.read_txn = TxnResult.ok)
    (herr : env.get_lte (probeKey D f) = EngineResult.err) :
    locateFull env D f = Outcome.panic ∧ locateFull env D f ≠ Outcome.ret none := by
  have h : locateFull env D f = Outcome.panic := by
    simp only [locateFull, htxn, herr]
  refine ⟨h, ?_⟩
  rw [h]
  simp

/-- C7 witness: a concrete environment whose probe reports a decode error. -/
theorem locate_decode_error_fatal_witness :
    locateFull ⟨TxnResult.ok, fun _ => EngineResult.err⟩ [0] 0 = Outcome.panic :=
  (locate_decode_error_fatal ⟨TxnResult.ok, fun _ => EngineResult.err⟩ [0] 0 rfl rfl).1

/-- C8 counterexample: when beginning the read transaction fails, the
source's `read_txn().unwrap()` panics: the call aborts instead of
returning an explicit error value to the caller (and it does not return
`None` either). -/
theorem locate_txn_fail_no_error_value :
    locateFull ⟨TxnResult.err, fun _ => EngineResult.ok none⟩ [0] 0 = Outcome.panic ∧
      locateFull ⟨TxnResult.err, fun _ => EngineResult.ok none⟩ [0] 0 ≠ Outcome.ret none := by
  refine ⟨rfl, ?_⟩
  intro h
  exact Outcome.noConfusion h

/-- C8 amended: whenever the environment fails to begin `locate`'s internal
read transaction, the call panics (aborts via `unwrap`); the failure is
neither swallowed nor converted into a `None` result, but no explicit
error value is returned to the caller. -/
theorem locate_txn_fail_panics (env : Env) (D : DatabaseId) (f : Nat)
    (herr : env.read_txn = TxnResult.err) :
    locateFull env D f = Outcome.panic ∧ locateFull env D f ≠ Outcome.ret none := by
  have h : locateFull env D f = Outcome.panic := by
    simp only [locateFull, herr]
  refine ⟨h, ?_⟩
  rw [h]
  simp

/-- C8 witness: the amended statement at a concrete failing environment. -/
theorem locate_txn_fail_panics_witness :
    locateFull ⟨TxnResult.err, fun _ => EngineResult.ok none⟩ [1] 7 = Outcome.panic :=
  (locate_txn_fail_panics ⟨TxnResult.err, fun _ => EngineResult.ok none⟩ [1] 7 rfl).1

/-- C9: `locate`'s result is a function of the read view it observes: two
calls with the same arguments whose read transactions observe the same
state (no intervening writes) return identical results. -/
theorem locate_deterministic (env1 env2 : Env) (D : DatabaseId) (f : Nat)
    (htxn : env1.read_txn = env2.read_txn)
    (hget : env1.get_lte (probeKey D f) = env2.get_lte (probeKey D f)) :
    locateFull env1 D f = locateFull env2 D f := by
  rw [locateFull, locateFull, htxn, hget]

/-- C9 witness: two environments that agree on the read view produce the
same answer. -/
theorem locate_deterministic_witness :
    locateFull ⟨TxnResult.ok, fun _ => EngineResult.ok none⟩ [0] 3 =
      locateFull ⟨TxnResult.ok, fun k =>
        if k.database_id = [] then EngineResult.err else EngineResult.ok none⟩ [0] 3 :=
  locate_deterministic ⟨TxnResult.ok, fun _ => EngineResult.ok none⟩
    ⟨TxnResult.ok, fun k =>
      if k.database_id = [] then EngineResult.err else EngineResult.ok none⟩
    [0] 3 rfl (by decide)

/-! ### Overwrite semantics of registering the same key twice -/

theorem filter_idem {α : Type} (p : α → Bool) (t : List α) :
    List.filter p (List.filter p t) = List.filter p t :=
  List.filter_eq_self.mpr (fun a ha => (List.mem_filter.mp ha).2)

theorem register_twice_eq (t : SnapshotTable) (D : DatabaseId) (s e u1 u2 : Nat) :
    register (register t D s e u1) D s e u2 =
      ((⟨D, BEU64.ofU64 s, BEU64.ofU64 e⟩, ⟨u2⟩) : SnapshotKey × SnapshotMeta) ::
        List.filter
          (fun kv => kv.1.encode ≠ (SnapshotKey.mk D (BEU64.ofU64 s) (BEU64.ofU64 e)).encode) t := by
  simp only [register, tablePut]
  congr 1
  rw [List.filter_cons_of_neg (by simp)]
  exact filter_idem _ t

theorem filter_eq_after_ne (key : SnapshotKey) (t : SnapshotTable) :
    List.filter (fun kv => kv.1.encode = key.encode)
      (List.filter (fun kv => kv.1.encode ≠ key.encode) t) = [] := by
  rw [List.filter_eq_nil_iff]
  intro a ha
  have h := (List.mem_filter.mp ha).2
  simp only [decide_eq_true_eq] at h ⊢
  exact h

theorem tableInv_put (L : Nat) (t : SnapshotTable) (D : DatabaseId) (s e u : Nat)
    (hD : D.length = L) (hs : s < 2 ^ 64) (he : e < 2 ^ 64) (hse : s ≤ e)
    (hinv : TableInv L t)
    (hnew : ∀ kv ∈ t, kv.1.database_id = D →
      kv.1.encode ≠ (SnapshotKey.mk D (BEU64.ofU64 s) (BEU64.ofU64 e)).encode →
      kv.1.end_frame_no.toU64 < s ∨ e < kv.1.start_frame_no.toU64) :
    TableInv L (tablePut t ⟨D, BEU64.ofU64 s, BEU64.ofU64 e⟩ ⟨u⟩) := by
  obtain ⟨hwf, hrange, hnodup, hdisj⟩ := hinv
  simp only [tablePut]
  refine ⟨?_, ?_, ?_, ?_⟩
  · intro kv hkv
    rcases List.mem_cons.mp hkv with hkv | hkv
    · rw [hkv]
      exact WFKey_ofU64 L D s e hD hs he
    · exact hwf kv (List.mem_of_mem_filter hkv)
  · intro kv hkv
    rcases List.mem_cons.mp hkv with hkv | hkv
    · rw [hkv]
      show (BEU64.ofU64 s).toU64 ≤ (BEU64.ofU64 e).toU64
      rw [toU64_ofU64 s hs, toU64_ofU64 e he]
      exact hse
    · exact hrange kv (List.mem_of_mem_filter hkv)
  · rw [List.map_cons, List.nodup_cons]
    constructor
    · intro hmm
      obtain ⟨kv, hkvf, henc⟩ := List.mem_map.mp hmm
      have h := (List.mem_filter.mp hkvf).2
      simp only [decide_eq_true_eq] at h
      exact h henc
    · exact List.Nodup.sublist (List.Sublist.map _ (List.filter_sublist t)) hnodup
  · intro kv1 h1 kv2 h2 hdbeq henc
    rcases List.mem_cons.mp h1 with h1 | h1 <;> rcases List.mem_cons.mp h2 with h2 | h2
    · rw [h1, h2] at henc
      exact absurd rfl henc
    · rw [h1] at hdbeq henc ⊢
      have hnf := (List.mem_filter.mp h2).2
      simp only [decide_eq_true_eq] at hnf
      rcases hnew kv2 (List.mem_of_mem_filter h2) hdbeq.symm hnf with h | h
      · right
        show kv2.1.end_frame_no.toU64 < (BEU64.ofU64 s).toU64
        rw [toU64_ofU64 s hs]
        exact h
      · left
        show (BEU64.ofU64 e).toU64 < kv2.1.start_frame_no.toU64
        rw [toU64_ofU64 e he]
        exact h
    · rw [h2] at hdbeq henc ⊢
      have hnf := (List.mem_filter.mp h1).2
      simp only [decide_eq_true_eq] at hnf
      rcases hnew kv1 (List.mem_of_mem_filter h1) hdbeq hnf with h | h
      · left
        show kv1.1.end_frame_no.toU64 < (BEU64.ofU64 s).toU64
        rw [toU64_ofU64 s hs]
        exact h
      · right
        show (BEU64.ofU64 e).toU64 < kv1.1.start_frame_no.toU64
        rw [toU64_ofU64 e he]
        exact h
    · exact hdisj kv1 (List.mem_of_mem_filter h1) kv2 (List.mem_of_mem_filter h2) hdbeq henc

/-- C10: registering twice with the identical key triple keeps a single
row for that key (the second `put` overwrites the first), the surviving
row carries the later `snapshot_id`, and `locate` on a contained frame
returns the later metadata. -/
theorem register_same_key_last_wins (L : Nat) (t : SnapshotTable) (D : DatabaseId)
    (s e u1 u2 f : Nat) (hD : D.length = L) (he : e < 2 ^ 64) (hse : s ≤ e)
    (hf1 : s ≤ f) (hf2 : f ≤ e) (hinv : TableInv L t)
    (hnew : ∀ kv ∈ t, kv.1.database_id = D →
      kv.1.encode ≠ (SnapshotKey.mk D (BEU64.ofU64 s) (BEU64.ofU64 e)).encode →
      kv.1.end_frame_no.toU64 < s ∨ e < kv.1.start_frame_no.toU64) :
    List.filter
        (fun kv => kv.1.encode = (SnapshotKey.mk D (BEU64.ofU64 s) (BEU64.ofU64 e)).encode)
        (register (register t D s e u1) D s e u2) =
      [(⟨D, BEU64.ofU64 s, BEU64.ofU64 e⟩, ⟨u2⟩)] ∧
      locate (register (register t D s e u1) D s e u2) D f = some ⟨u2⟩ := by
  have hs : s < 2 ^ 64 := by omega
  have ht2 := register_twice_eq t D s e u1 u2
  constructor
  · rw [ht2, List.filter_cons_of_pos (by simp)]
    rw [filter_eq_after_ne]
  · rw [ht2]
    have hinv2 : TableInv L (tablePut t ⟨D, BEU64.ofU64 s, BEU64.ofU64 e⟩ ⟨u2⟩) :=
      tableInv_put L t D s e u2 hD hs he hse hinv hnew
    refine (locate_eq_some_iff L _ D f hD (by omega) hinv2 ⟨u2⟩).mpr ?_
    refine ⟨⟨D, BEU64.ofU64 s, BEU64.ofU64 e⟩, List.mem_cons_self _ _, rfl, ?_, ?_⟩
    · show (BEU64.ofU64 s).toU64 ≤ f
      rw [toU64_ofU64 s hs]
      exact hf1
    · show f ≤ (BEU64.ofU64 e).toU64
      rw [toU64_ofU64 e he]
      exact hf2

/-- C10 witness: registering `(D,1,10)` as snapshot 1 then snapshot 2;
frame 5 resolves to snapshot 2. -/
theorem register_same_key_last_wins_witness :
    locate (register (register [] [0] 1 10 1) [0] 1 10 2) [0] 5 = some ⟨2⟩ :=
  (register_same_key_last_wins 1 [] [0] 1 10 1 2 5 rfl (by norm_num) (by norm_num)
    (by norm_num) (by norm_num) (by decide) (by decide)).2
